import Mathlib

/-!
# Verification of the liushu dictionary/search core

Shallow embedding of the liushu input-method core (`liushu-core/src/dict.rs`,
`liushu-core/src/config.rs`, `liushu-core/src/engine.rs`) and proofs about it.

Strings are Lean `String`s; the `u32`/`u64` weights are `Nat` with an explicit
range check where the source parses a `u32`. Fallible operations return
`Except LiushuError` mirroring `Result<_, LiushuError>`.
-/

namespace Liushu

/-- Mirrors `LiushuError` (`liushu-core/src/error.rs`, seen through its uses):
a sum of underlying failure causes; for the properties proved here only the
presence of an error matters, so a single message-carrying constructor is kept. -/
inductive LiushuError where
  | other : String → LiushuError
deriving DecidableEq, Repr

/-- Mirrors `DictItem` (`dict.rs`): `{ text: String, code: String, weight: u32,
comment: Option<String> }`. -/
structure DictItem where
  text : String
  code : String
  weight : Nat
  comment : Option String
deriving DecidableEq, Repr

/-- Mirrors `SearchResultItem` (`engine.rs`): `{ text, code, weight: u64, comment }`. -/
structure SearchResultItem where
  text : String
  code : String
  weight : Nat
  comment : Option String
deriving DecidableEq, Repr

/-- Decidable equality for `Result`-shaped values (`Except` here), so that
concrete runs of the fallible operations can be checked by evaluation. -/
instance exceptDecEq {ε α : Type} [DecidableEq ε] [DecidableEq α] :
    DecidableEq (Except ε α)
  | .error e, .error f =>
    if h : e = f then isTrue (congrArg Except.error h)
    else isFalse fun he => h (Except.error.inj he)
  | .error _, .ok _ => isFalse fun he => Except.noConfusion he
  | .ok _, .error _ => isFalse fun he => Except.noConfusion he
  | .ok a, .ok b =>
    if h : a = b then isTrue (congrArg Except.ok h)
    else isFalse fun he => h (Except.ok.inj he)

/-! ## Dictionary row parsing

The compilers read tab-separated files through `csv::ReaderBuilder` and
`rdr.deserialize::<DictItem>()`. At the record level, serde fills the struct
fields positionally: `text` and `code` are the verbatim column strings (no
validation), `weight` must parse as a `u32`, and `comment : Option<String>`
is `None` when the column is missing or empty. -/

/-- serde's `u32` parse of the weight column (Rust `u32: FromStr` through
`serde::Deserialize`): a non-empty string of decimal digits whose value fits
in 32 bits; anything else fails. -/
def parseU32 (s : String) : Option Nat :=
  if s.data ≠ [] ∧ (s.data.all fun c => 48 ≤ c.toNat && c.toNat ≤ 57) then
    let n := s.data.foldl (fun n c => n * 10 + (c.toNat - 48)) 0
    if n < 2 ^ 32 then some n else none
  else
    none

/-- Record-level deserialization of one csv record into a `DictItem`, mirroring
what `rdr.deserialize()` does to a single non-comment record in `dict.rs` /
`config.rs`: fields in order `text, code, weight, comment`, the comment column
optional, absent or empty comment becoming `none`, the weight column required
to parse as a `u32` (otherwise the record errors). -/
def parseRecord : List String → Except LiushuError DictItem
  | [t, c, w] =>
    match parseU32 w with
    | some n => .ok ⟨t, c, n, none⟩
    | none => .error (.other "invalid weight")
  | [t, c, w, cm] =>
    match parseU32 w with
    | some n => .ok ⟨t, c, n, if cm = "" then none else some cm⟩
    | none => .error (.other "invalid weight")
  | _ => .error (.other "malformed record")

/-! ## Relational compile path (`Formula::compile`, `config.rs` lines 40-64)

The sqlite connection is modelled by the committed contents of its `dict`
table. `conn.transaction()` opens a rusqlite `Transaction`, whose documented
drop behavior is `DropBehavior::Rollback`: unless `commit` is called, dropping
the transaction rolls every buffered change back. `Formula::compile` inserts
one row per parsed record and then returns `Ok(())` — it never calls
`tx.commit()`, so the transaction object is dropped (and rolled back) when the
function returns, on the success path as well as on the error path. -/

/-- The committed state of the sqlite database: the rows of the `dict` table. -/
structure SqliteDb where
  dict : List DictItem
deriving DecidableEq, Repr

/-- An open rusqlite write transaction over the `dict` table: the rows as seen
inside the transaction, plus whether `commit` was called. -/
structure SqliteTx where
  pending : List DictItem
  committed : Bool
deriving DecidableEq, Repr

/-- `conn.transaction()`. -/
def txBegin (db : SqliteDb) : SqliteTx := ⟨db.dict, false⟩

/-- `tx.execute("INSERT INTO dict (text, code, weight, comment) VALUES …")`. -/
def txInsert (tx : SqliteTx) (item : DictItem) : SqliteTx :=
  { tx with pending := tx.pending ++ [item] }

/-- Dropping the transaction at end of scope: rusqlite commits the buffered
rows only when `commit` was called, and rolls back otherwise. -/
def txDrop (db : SqliteDb) (tx : SqliteTx) : SqliteDb :=
  if tx.committed then ⟨tx.pending⟩ else db

/-- The inner loop of `Formula::compile`: for every parse result of every
dictionary file, an error aborts the whole compile, and a parsed row is
inserted into the transaction. -/
def compileLoop (tx : SqliteTx) : List (Except LiushuError DictItem) → Except LiushuError SqliteTx
  | [] => .ok tx
  | .ok item :: rest => compileLoop (txInsert tx item) rest
  | .error e :: _ => .error e

/-- Mirrors `Formula::compile` (`config.rs` 40-64): open the database, begin a
write transaction, insert one row per parsed record of every dictionary file
(in file order), and return `Ok(())`. The source returns without calling
`tx.commit()`, so in both outcomes the transaction is dropped and rolled back;
the returned database is the committed state after the call. Each dictionary
file is given by the sequence of parse results its csv reader yields. -/
def Formula.compile (db : SqliteDb) (files : List (List (Except LiushuError DictItem))) :
    Except LiushuError Unit × SqliteDb :=
  match compileLoop (txBegin db) files.flatten with
  | .ok tx => (.ok (), txDrop db tx)
  | .error e => (.error e, db)

/-! ## Engine manager (`engine.rs` lines 13-38)

`EngineManager` holds a `VecDeque<Box<dyn InputMethodEngine>>`; an engine is
modelled by its `search` function. `VecDeque::swap(0, idx)` and indexing
`engines[0]` panic when out of bounds; a panic is modelled as `Option.none`
(as opposed to the typed `Except LiushuError` error channel of `search`). -/

/-- A boxed `dyn InputMethodEngine`, reduced to its one capability. -/
abbrev EngineFn := String → Except LiushuError (List SearchResultItem)

/-- Mirrors `EngineManager`: the held deque of engines. -/
structure EngineManager where
  engines : List EngineFn

/-- `VecDeque::swap i j`: exchange the elements at positions `i` and `j`;
out-of-bounds indices panic (here: the guarding `match` falls through only
when both reads succeed, and the panicking case is handled by the caller). -/
def swapIdx (l : List α) (i j : Nat) : List α :=
  match l[i]?, l[j]? with
  | some a, some b => (l.set i b).set j a
  | _, _ => l

/-- Mirrors `EngineManager::set_active_engine` (`engine.rs` 18-20):
`self.engines.swap(0, idx)`. `VecDeque::swap` panics when `idx` (or, for an
empty deque, `0`) is out of bounds; the panic is `none`. -/
def setActiveEngine (m : EngineManager) (idx : Nat) : Option EngineManager :=
  if idx < m.engines.length ∧ 0 < m.engines.length then
    some ⟨swapIdx m.engines 0 idx⟩
  else
    none

/-- Mirrors `EngineManager::search` (`engine.rs` 35-37):
`self.engines[0].search(code)`; indexing an empty deque panics (`none`). -/
def EngineManager.search (m : EngineManager) (code : String) :
    Option (Except LiushuError (List SearchResultItem)) :=
  match m.engines with
  | [] => none
  | e :: _ => some (e code)

/-! ## Relational search engine (`ShapeCodeEngine::search`, `engine.rs` 51-67)

The engine runs
`SELECT * FROM (SELECT * FROM dict WHERE code LIKE ?1) GROUP BY text ORDER BY weight DESC`
with the parameter `code + "%"`. The pieces of sqlite semantics it relies on:

* `LIKE`: `%` matches any character sequence, `_` matches any single
  character, and letter comparison is ASCII-case-insensitive (sqlite's
  default `like()` with no `case_sensitive_like` pragma and no `ESCAPE`);
* `GROUP BY text` with bare (non-aggregated) columns: one output row per
  distinct `text`, its values taken from one row of the group — which row is
  unspecified by sqlite but deterministic for a fixed query plan; the model
  fixes the representative to the last row of the group in table order;
* `ORDER BY weight DESC`: output sorted by weight, largest first. -/

/-- ASCII lower-casing of a single character, as sqlite's default `LIKE`
applies to pattern and operand characters. -/
def asciiLower (c : Char) : Char :=
  if 'A' ≤ c ∧ c ≤ 'Z' then Char.ofNat (c.toNat + 32) else c

/-- Sqlite `LIKE` match of a pattern against a string (no `ESCAPE` clause):
`%` matches any sequence, `_` matches any one character, other characters
compare ASCII-case-insensitively. -/
def likeMatch : List Char → List Char → Bool
  | [], s => s.isEmpty
  | p :: ps, s =>
    if p = '%' then
      likeMatch ps s ||
        match s with
        | [] => false
        | _ :: cs => likeMatch (p :: ps) cs
    else
      match s with
      | [] => false
      | c :: cs => (p = '_' || (asciiLower p = asciiLower c : Bool)) && likeMatch ps cs
termination_by p s => (p.length, s.length)

/-- ASCII-case-insensitive "is a prefix of" on character lists; what the
`code LIKE (q ++ "%")` filter amounts to for a wildcard-free query `q`. -/
def asciiPrefixCI : List Char → List Char → Bool
  | [], _ => true
  | _ :: _, [] => false
  | p :: ps, c :: cs => (asciiLower p = asciiLower c : Bool) && asciiPrefixCI ps cs

/-- `GROUP BY text` with bare columns: keep, per distinct `text`, the last row
of the group in table order (a fixed deterministic representative choice). -/
def collapseByText : List DictItem → List DictItem
  | [] => []
  | r :: rs => if rs.any (fun x => x.text = r.text) then collapseByText rs else r :: collapseByText rs

/-- `SELECT *` row of the `dict` table read back through
`SearchResultItem::try_from`: all four columns carried over. -/
def rowToItem (r : DictItem) : SearchResultItem :=
  ⟨r.text, r.code, r.weight, r.comment⟩

/-- Insert into a weight-descending sorted list (`ORDER BY weight DESC`). -/
def insertByWeight (x : SearchResultItem) : List SearchResultItem → List SearchResultItem
  | [] => [x]
  | y :: ys => if x.weight ≥ y.weight then x :: y :: ys else y :: insertByWeight x ys

/-- `ORDER BY weight DESC`: sort the grouped rows by weight, descending. -/
def sortByWeightDesc (l : List SearchResultItem) : List SearchResultItem :=
  l.foldr insertByWeight []

/-- Mirrors `ShapeCodeEngine::search` (`engine.rs` 52-66) over the committed
`dict` table: filter rows whose `code` is `LIKE (code ++ "%")`, group by
`text`, order by weight descending, convert each surviving row through
`SearchResultItem::try_from`. Absent a storage failure the query itself
cannot fail, so the function always returns `.ok`. -/
def ShapeCodeEngine.search (tbl : List DictItem) (code : String) :
    Except LiushuError (List SearchResultItem) :=
  .ok (sortByWeightDesc
    ((collapseByText (tbl.filter fun r => likeMatch (code.data ++ ['%']) r.code.data)).map rowToItem))

/-! ## Trie/KV compile path (`Formula::compile2`, `config.rs` 66-108)

The redb `DICTIONARY` table (`text → (weight, comment)`) is modelled as an
association list with at most one binding per key (`insert` is an upsert);
the in-memory `PatriciaMap<Vec<String>>` as an association list from code to
the list of texts pushed for that code. -/

/-- A definition entry: `(weight, comment)` as stored in the redb table. -/
abbrev DefEntry := Nat × Option String

/-- The redb `DICTIONARY` table contents. -/
abbrev DefsMap := List (String × DefEntry)

/-- redb `table.get(key)`: the value bound to `key`, if any. -/
def defsLookup (m : DefsMap) (k : String) : Option DefEntry :=
  (m.find? fun p => p.1 = k).map Prod.snd

/-- redb `table.insert(key, value)`: replace the binding of `key` when present,
append a new binding otherwise (an upsert — last write for a key wins). -/
def defsInsert (m : DefsMap) (k : String) (v : DefEntry) : DefsMap :=
  if m.any fun p => p.1 = k then
    m.map fun p => if p.1 = k then (k, v) else p
  else
    m ++ [(k, v)]

/-- The in-memory `PatriciaMap<Vec<String>>` built by `compile2`, keyed by
`code`, holding for each code the texts pushed for it. -/
abbrev TrieMap := List (String × List String)

/-- `trie.get(code)`. -/
def trieLookup (t : TrieMap) (code : String) : Option (List String) :=
  (t.find? fun p => p.1 = code).map Prod.snd

/-- The per-row trie update of `compile2` (`config.rs` 94-98): insert a fresh
singleton list when `code` is unseen, otherwise push `text` onto the existing
entry (no deduplication). -/
def triePush (t : TrieMap) (code text : String) : TrieMap :=
  if (trieLookup t code).isNone then
    t ++ [(code, [text])]
  else
    t.map fun p => if p.1 = code then (p.1, p.2 ++ [text]) else p

/-- The state `compile2` threads through its row loop: the open redb table and
the in-memory trie. -/
structure Compile2State where
  defs : DefsMap
  trie : TrieMap

/-- The body of `compile2`'s row loop (`config.rs` 85-99): upsert
`(weight, comment)` under `text` into the definitions table, then push `text`
onto the trie entry for `code`. -/
def compile2Step (st : Compile2State) (item : DictItem) : Compile2State :=
  ⟨defsInsert st.defs item.text (item.weight, item.comment),
   triePush st.trie item.code item.text⟩

/-- The row loop of `compile2` over the concatenated parse results of all the
formula's dictionary files: any parse error aborts the compile. -/
def compile2Loop (st : Compile2State) :
    List (Except LiushuError DictItem) → Except LiushuError Compile2State
  | [] => .ok st
  | .ok item :: rest => compile2Loop (compile2Step st item) rest
  | .error e :: _ => .error e

/-- Mirrors `Formula::compile2` (`config.rs` 66-108): starting from a fresh
database and an empty trie, process every parse result of every dictionary
file in order; on success the redb transaction is committed and the trie
serialized, so the result is the pair (definitions table, trie). -/
def Formula.compile2 (files : List (List (Except LiushuError DictItem))) :
    Except LiushuError Compile2State :=
  compile2Loop ⟨[], []⟩ files.flatten

/-- The same loop over rows that all parsed, as a pure fold. -/
def compile2Pure (items : List DictItem) : Compile2State :=
  items.foldl compile2Step ⟨[], []⟩

/-! ## Trie search engine (`EngineWithRedb::search`, `engine.rs` 94-121)

`redb`'s `table.get` returns `Result<Option<AccessGuard>, Error>`; the table
handle is modelled as a function `String → Except LiushuError (Option DefEntry)`
so that both a missing entry and a storage error can occur at any key. The
trie is the deserialized `PatriciaMap<Vec<String>>`; `iter_prefix(code)`
yields every entry whose key has `code` as a prefix, in stored order. -/

/-- The redb table handle as seen by one `get` per key: either a storage
error, or the optional `(weight, comment)` for the text. -/
abbrev DefsTableHandle := String → Except LiushuError (Option DefEntry)

/-- Mirrors `EngineWithRedb::search` (`engine.rs` 95-120): iterate the trie
entries whose key has `code` as a prefix; for each text in each entry build
`Ok(Some(item))` from the table lookup, keeping the nested
`Result<Option<_>>`; then `filter_map(|v| v.ok().flatten())` drops every
error and every missing definition. The whole search returns `Ok`. -/
def EngineWithRedb.search (trie : TrieMap) (defs : DefsTableHandle) (code : String) :
    Except LiushuError (List SearchResultItem) :=
  .ok (((trie.filter fun kv => code.isPrefixOf kv.1).flatMap fun kv =>
      kv.2.map fun text =>
        (defs text).map fun entry =>
          entry.map fun v => SearchResultItem.mk text kv.1 v.1 v.2).filterMap
    fun v => v.toOption.join)

/-- The trie search restated from §4.6 of the spec, to compare with
`EngineWithRedb.search`: one result per (matching key, text) pair whose text
resolves in the definitions table, in traversal order; unresolved or erroring
pairs are dropped. -/
def trieSearchSpec (trie : TrieMap) (defs : DefsTableHandle) (code : String) :
    List SearchResultItem :=
  (trie.filter fun kv => code.isPrefixOf kv.1).flatMap fun kv =>
    kv.2.filterMap fun text =>
      match defs text with
      | .ok (some v) => some (SearchResultItem.mk text kv.1 v.1 v.2)
      | _ => none

/-! ## Flat perfect-hash build (`build2`, `dict.rs` 49-93)

`build2` parses every row of every input file into one list (`items`), takes
the distinct texts in first-occurrence order (`itertools::unique`), builds a
`boomphf::Mphf` over them, and fills a definition array of that length: the
first row carrying a given text writes `(weight, comment)` at the index the
hash assigns to the text (guarded by the `visited` set); every row inserts its
text into the `StringPatriciaSet` stored in the trie under its code.

The `Mphf` itself is an external crate; `build2` is verified for an arbitrary
index function `phf` under the hypotheses boomphf documents (no collisions on
the key set, indices below the key count), and `mphfModel` below discharges
them. -/

/-- The texts of the parsed rows, in input order (with duplicates). -/
def textsOf (items : List DictItem) : List String := items.map DictItem.text

/-- Deduplication keeping first occurrences, threading the set of elements
already seen — the shape shared by `itertools::unique` and the
`visited`-guarded writes of `build2`. -/
def uniqAux (seen : List String) : List String → List String
  | [] => []
  | t :: ts => if t ∈ seen then uniqAux seen ts else t :: uniqAux (t :: seen) ts

/-- `itertools::unique` over the texts: distinct texts, keeping the first
occurrence of each, in first-occurrence order (`dict.rs` 67). -/
def uniqTexts (l : List String) : List String := uniqAux [] l

/-- Modelled from the spec: `boomphf::Mphf::new(1.7, keys)` (an external
crate) is specified by the MPHF glossary entry — a hash over the fixed key
set with no collisions and codomain exactly the key-set size. The model maps
each key to its position in the (duplicate-free) key list. -/
def mphfModel (keys : List String) (t : String) : Nat := keys.indexOf t

/-- The trie built by `build2`: `StringPatriciaMap<StringPatriciaSet>`,
each value a set of texts. A `StringPatriciaSet` is modelled as its list of
elements with set-semantics insertion (adding a present element is a no-op). -/
abbrev TrieSetMap := List (String × List String)

/-- `StringPatriciaSet::insert`: add the text unless already present. -/
def setInsert (s : List String) (t : String) : List String :=
  if t ∈ s then s else s ++ [t]

/-- The per-row trie update of `build2` (`dict.rs` 72-77): insert into the
existing set, or bind a fresh singleton set. -/
def trieSetAdd (tr : TrieSetMap) (code text : String) : TrieSetMap :=
  if ((tr.find? fun p => p.1 = code).map Prod.snd).isSome then
    tr.map fun p => if p.1 = code then (p.1, setInsert p.2 text) else p
  else
    tr ++ [(code, [text])]

/-- `tr.get(code)` on the set-valued trie. -/
def trieSetLookup (tr : TrieSetMap) (code : String) : Option (List String) :=
  (tr.find? fun p => p.1 = code).map Prod.snd

/-- The state of `build2`'s row loop: the set-valued trie, the definition
array (`def_table`), the `visited` set of texts already written, and — as
instrumentation only — the list of array indices written so far, in order. -/
structure Build2State where
  trie : TrieSetMap
  defTable : List DefEntry
  visited : List String
  writes : List Nat

/-- The body of `build2`'s row loop (`dict.rs` 71-83): add the text to the
trie set for its code; then, when the text was not yet visited, mark it
visited and write `(weight, comment)` at `phf text` in the definition array
(recording the written index in the instrumentation list). -/
def build2Step (phf : String → Nat) (st : Build2State) (item : DictItem) : Build2State :=
  let tr := trieSetAdd st.trie item.code item.text
  if item.text ∈ st.visited then
    { st with trie := tr }
  else
    { trie := tr
      defTable := st.defTable.set (phf item.text) (item.weight, item.comment)
      visited := item.text :: st.visited
      writes := st.writes ++ [phf item.text] }

/-- Mirrors the in-memory phase of `build2` (`dict.rs` 66-83) for parsed rows
`items` and index function `phf`: fold the row loop over the items, starting
from the empty trie, a definition array of `uniq_words_vec.len()` slots
initialized to `(0, None)`, and nothing visited. -/
def build2Fold (phf : String → Nat) (items : List DictItem) : Build2State :=
  items.foldl (build2Step phf) ⟨[], List.replicate (uniqTexts (textsOf items)).length (0, none), [], []⟩

/-! ## Helper lemmas -/

theorem filterMap_flatMap_eq {α β γ : Type} (l : List α) (g : α → List β) (f : β → Option γ) :
    (l.flatMap g).filterMap f = l.flatMap fun a => (g a).filterMap f := by
  induction l with
  | nil => rfl
  | cons a t ih => simp [List.flatMap_cons, List.filterMap_append, ih]

/-! ## Claims -/

/-- C1: the claim says a successful `Formula::compile` commits its write
transaction, leaving one `dict` row per source dictionary row. The code never
calls `tx.commit()`, so rusqlite rolls the transaction back when it is
dropped at the end of the function: compiling a formula with one dictionary
file holding one parsed row reports success, yet the committed `dict` table
is left empty instead of holding that row. -/
theorem compile_reportsOk_butCommitsNothing :
    Formula.compile ⟨[]⟩ [[.ok ⟨"你好", "ni hao", 1, none⟩]] = (.ok (), ⟨[]⟩) ∧
    (Formula.compile ⟨[]⟩ [[.ok ⟨"你好", "ni hao", 1, none⟩]]).2.dict.length = 0 := by
  decide

/-- C3: the trie engine's search yields one `(matched_code, text, weight,
comment)` result for every text stored under every trie key that has the
query as a prefix and whose text resolves in the definitions table; a pair
whose lookup errors or comes back empty is silently dropped, and the search
as a whole still returns `Ok`. -/
theorem trieEngine_search_bestEffortJoin (trie : TrieMap) (defs : DefsTableHandle)
    (code : String) :
    EngineWithRedb.search trie defs code = .ok (trieSearchSpec trie defs code) := by
  unfold EngineWithRedb.search trieSearchSpec
  rw [filterMap_flatMap_eq]
  refine congrArg _ (congrArg _ (funext fun kv => ?_))
  rw [List.filterMap_map]
  refine congrArg (fun f => List.filterMap f kv.2) (funext fun text => ?_)
  cases h : defs text with
  | error e => simp [Function.comp, h, Except.map, Except.toOption, Option.join]
  | ok o => cases o <;> simp [Function.comp, h, Except.map, Except.toOption, Option.join]

/-- C9 counterexample: the claim says every parsed `DictItem` has non-empty
`text` and `code`. Deserialization performs no such validation: the record
whose text and code columns are both empty parses successfully. -/
theorem parse_nonempty_counterexample :
    ¬ ∀ (fields : List String) (item : DictItem),
        parseRecord fields = .ok item → item.text ≠ "" ∧ item.code ≠ "" := by
  intro h
  exact (h ["", "", "5"] ⟨"", "", 5, none⟩ (by decide)).1 rfl

/-- C9 amended: every `DictItem` produced by parsing a dictionary record
carries the verbatim text and code columns of that record — which may be
empty, since parsing enforces no non-emptiness on either field. -/
theorem parseRecord_verbatim_fields (fields : List String) (item : DictItem)
    (h : parseRecord fields = .ok item) :
    fields[0]? = some item.text ∧ fields[1]? = some item.code := by
  match fields with
  | [] => simp [parseRecord] at h
  | [t] => simp [parseRecord] at h
  | [t, c] => simp [parseRecord] at h
  | [t, c, w] =>
    cases hw : parseU32 w with
    | none => simp [parseRecord, hw] at h
    | some n =>
      simp only [parseRecord, hw] at h
      obtain rfl := (Except.ok.inj h).symm
      exact ⟨rfl, rfl⟩
  | [t, c, w, cm] =>
    cases hw : parseU32 w with
    | none => simp [parseRecord, hw] at h
    | some n =>
      simp only [parseRecord, hw] at h
      obtain rfl := (Except.ok.inj h).symm
      exact ⟨rfl, rfl⟩
  | t :: c :: w :: cm :: x :: rest => simp [parseRecord] at h

/-- Witness for the amended C9 at a concrete record. -/
theorem parseRecord_verbatim_fields_witness :
    (["a", "b", "5"] : List String)[0]? = some "a" ∧
    (["a", "b", "5"] : List String)[1]? = some "b" :=
  parseRecord_verbatim_fields ["a", "b", "5"] ⟨"a", "b", 5, none⟩ (by decide)

/-- C10: `EngineManager`'s operations are partial: `set_active_engine idx`
returns normally exactly when `idx` is in range (and panics — `none` —
otherwise, including `set_active_engine 0` on an empty manager), and `search`
returns normally exactly when the manager holds at least one engine; neither
out-of-range condition surfaces through the typed `LiushuError` channel. -/
theorem engineManager_partial_ops (m : EngineManager) (idx : Nat) :
    ((setActiveEngine m idx).isSome ↔ idx < m.engines.length) ∧
    ∀ q, (m.search q).isSome ↔ m.engines ≠ [] := by
  constructor
  · unfold setActiveEngine
    split
    · next h => simpa using h.1
    · next h =>
      simp only [Option.isSome_none, Bool.false_eq_true, false_iff]
      intro hlt
      exact h ⟨hlt, Nat.lt_of_le_of_lt (Nat.zero_le idx) hlt⟩
  · intro q
    unfold EngineManager.search
    cases hm : m.engines <;> simp [hm]

theorem length_swapIdx (l : List α) (i j : Nat) : (swapIdx l i j).length = l.length := by
  unfold swapIdx
  split <;> simp

theorem getElem?_swapIdx (l : List α) (i j k : Nat) (hi : i < l.length) (hj : j < l.length) :
    (swapIdx l i j)[k]? = if k = j then l[i]? else if k = i then l[j]? else l[k]? := by
  unfold swapIdx
  rw [List.getElem?_eq_getElem hi, List.getElem?_eq_getElem hj]
  by_cases hkj : k = j
  · rw [if_pos hkj, hkj, List.getElem?_set_self (by simp [hj])]
  · rw [if_neg hkj, List.getElem?_set_ne (fun he => hkj he.symm)]
    by_cases hki : k = i
    · rw [if_pos hki, hki, List.getElem?_set_self hi]
    · rw [if_neg hki, List.getElem?_set_ne (fun he => hki he.symm)]

theorem swapIdx_swapIdx (l : List α) (k : Nat) (hk : k < l.length) :
    swapIdx (swapIdx l 0 k) 0 k = l := by
  have h0 : 0 < l.length := Nat.lt_of_le_of_lt (Nat.zero_le k) hk
  have h0s : 0 < (swapIdx l 0 k).length := by rw [length_swapIdx]; exact h0
  have hks : k < (swapIdx l 0 k).length := by rw [length_swapIdx]; exact hk
  apply List.ext_getElem?
  intro m
  rw [getElem?_swapIdx _ _ _ _ h0s hks]
  by_cases hmk : m = k
  · rw [if_pos hmk, getElem?_swapIdx _ _ _ _ h0 hk]
    by_cases h0k : (0 : Nat) = k
    · rw [if_pos h0k, hmk, ← h0k]
    · rw [if_neg h0k, if_pos rfl, hmk]
  · rw [if_neg hmk]
    by_cases hm0 : m = 0
    · rw [if_pos hm0, getElem?_swapIdx _ _ _ _ h0 hk, if_pos rfl, hm0]
    · rw [if_neg hm0, getElem?_swapIdx _ _ _ _ h0 hk, if_neg hmk, if_neg hm0]

/-- C5: `EngineManager.search` always delegates to the engine at position 0;
`set_active_engine k` (for in-range `k`) exchanges positions 0 and `k`,
leaves every other position unchanged, and applying it twice restores the
original manager — so after one swap, search delegates to the engine that
was at position `k`. -/
theorem engineManager_swap_activate (m : EngineManager) (k : Nat)
    (h : k < m.engines.length) :
    (∀ q, m.search q = m.engines[0]?.map fun e => e q) ∧
    ∃ m2, setActiveEngine m k = some m2 ∧
      m2.engines[0]? = m.engines[k]? ∧
      m2.engines[k]? = m.engines[0]? ∧
      (∀ i, i ≠ 0 → i ≠ k → m2.engines[i]? = m.engines[i]?) ∧
      setActiveEngine m2 k = some m ∧
      ∀ q, m2.search q = m.engines[k]?.map fun e => e q := by
  have h0 : 0 < m.engines.length := Nat.lt_of_le_of_lt (Nat.zero_le k) h
  have hsearch : ∀ (x : EngineManager) (q : String),
      x.search q = x.engines[0]?.map fun e => e q := by
    intro x q
    unfold EngineManager.search
    cases hx : x.engines <;> simp [hx]
  refine ⟨fun q => hsearch m q, ⟨swapIdx m.engines 0 k⟩, ?_, ?_, ?_, ?_, ?_, ?_⟩
  · unfold setActiveEngine
    simp [h, h0]
  · rw [getElem?_swapIdx _ _ _ _ h0 h]
    by_cases h0k : (0 : Nat) = k <;> simp [h0k]
  · rw [getElem?_swapIdx _ _ _ _ h0 h]
    simp
  · intro i hi0 hik
    rw [getElem?_swapIdx _ _ _ _ h0 h]
    simp [hik, hi0]
  · unfold setActiveEngine
    rw [if_pos ⟨by simpa [length_swapIdx] using h, by simpa [length_swapIdx] using h0⟩]
    rw [swapIdx_swapIdx m.engines k h]
  · intro q
    rw [hsearch]
    rw [getElem?_swapIdx _ _ _ _ h0 h]
    by_cases h0k : (0 : Nat) = k <;> simp [h0k]

/-- The two concrete engines of the repository's `test_engine_manager`. -/
def engA : EngineFn := fun _ => .ok []

/-- The erroring engine of `test_engine_manager`. -/
def engB : EngineFn := fun _ => .error (.other "test")

/-- Witness for C5 at the concrete two-engine manager of the repository's
`test_engine_manager` test, with `k = 1`. -/
theorem engineManager_swap_activate_witness :
    (∀ q, (EngineManager.mk [engA, engB]).search q =
      (EngineManager.mk [engA, engB]).engines[0]?.map fun e => e q) ∧
    ∃ m2, setActiveEngine (EngineManager.mk [engA, engB]) 1 = some m2 ∧
      m2.engines[0]? = (EngineManager.mk [engA, engB]).engines[1]? ∧
      m2.engines[1]? = (EngineManager.mk [engA, engB]).engines[0]? ∧
      (∀ i, i ≠ 0 → i ≠ 1 → m2.engines[i]? = (EngineManager.mk [engA, engB]).engines[i]?) ∧
      setActiveEngine m2 1 = some (EngineManager.mk [engA, engB]) ∧
      ∀ q, m2.search q = (EngineManager.mk [engA, engB]).engines[1]?.map fun e => e q :=
  engineManager_swap_activate (EngineManager.mk [engA, engB]) 1 (by decide)

theorem find?_map_keyEq {β : Type} (l : List (String × β)) (f : String × β → String × β)
    (hf : ∀ p, (f p).1 = p.1) (k : String) :
    ((l.map f).find? fun p => p.1 = k) = (l.find? fun p => p.1 = k).map f := by
  rw [List.find?_map]
  have he : ((fun p : String × β => decide (p.1 = k)) ∘ f) =
      fun p : String × β => decide (p.1 = k) := by
    funext p
    simp [Function.comp, hf p]
  rw [he]

theorem defsLookup_defsInsert (m : DefsMap) (k k2 : String) (v : DefEntry) :
    defsLookup (defsInsert m k v) k2 = if k2 = k then some v else defsLookup m k2 := by
  unfold defsInsert defsLookup
  by_cases hany : (m.any fun p => p.1 = k) = true
  · rw [if_pos hany,
      find?_map_keyEq m _ (fun p => by by_cases hp : p.1 = k <;> simp [hp]) k2]
    by_cases hk : k2 = k
    · subst hk
      have hsome : (m.find? fun p => p.1 = k2).isSome := by
        rw [List.find?_isSome]
        simpa using List.any_eq_true.mp hany
      obtain ⟨q, hq⟩ := Option.isSome_iff_exists.mp hsome
      have hqk : q.1 = k2 := by simpa using List.find?_some hq
      rw [hq, if_pos rfl]
      simp [hqk]
    · rw [if_neg hk]
      cases hfind : m.find? fun p => p.1 = k2 with
      | none => rfl
      | some q =>
        have hqk : q.1 = k2 := by simpa using List.find?_some hfind
        simp [hqk, hk]
  · rw [if_neg hany]
    have hnone : (m.find? fun p => p.1 = k) = none := by
      rw [List.find?_eq_none]
      intro x hx
      simpa using fun he =>
        (List.any_eq_false.mp (Bool.not_eq_true _ ▸ hany)) x hx (by simp [he])
    by_cases hk : k2 = k
    · subst hk
      rw [if_pos rfl, List.find?_append, hnone, Option.none_or]
      simp [List.find?]
    · rw [if_neg hk, List.find?_append]
      have hd : decide (k = k2) = false := decide_eq_false fun he => hk he.symm
      have hsingle : ([(k, v)].find? fun p => p.1 = k2) = none := by
        simp [List.find?, hd]
      rw [hsingle, Option.or_none]

theorem trieLookup_triePush (t : TrieMap) (code text c : String) :
    trieLookup (triePush t code text) c =
      if c = code then some (((trieLookup t code).getD []) ++ [text])
      else trieLookup t c := by
  have hkey : ∀ p : String × List String,
      ((if p.1 = code then (p.1, p.2 ++ [text]) else p) : String × List String).1 = p.1 := by
    intro p
    by_cases hp : p.1 = code <;> simp [hp]
  unfold triePush
  by_cases hn : (trieLookup t code).isNone = true
  · rw [if_pos hn]
    have hnone : (t.find? fun p => p.1 = code) = none := by
      unfold trieLookup at hn
      cases hfind : t.find? fun p => p.1 = code
      · rfl
      · rw [hfind] at hn
        simp at hn
    by_cases hc : c = code
    · rw [if_pos hc, hc]
      unfold trieLookup
      rw [List.find?_append, hnone, Option.none_or]
      simp [List.find?]
    · rw [if_neg hc]
      unfold trieLookup
      rw [List.find?_append]
      have hd : decide (code = c) = false := decide_eq_false fun he => hc he.symm
      have hsingle : ([(code, [text])].find? fun p => p.1 = c) = none := by
        simp [List.find?, hd]
      rw [hsingle, Option.or_none]
  · rw [if_neg hn]
    obtain ⟨q, hfind⟩ : ∃ q, (t.find? fun p => p.1 = code) = some q := by
      unfold trieLookup at hn
      cases hfind : t.find? fun p => p.1 = code
      · rw [hfind] at hn
        simp at hn
      · exact ⟨_, rfl⟩
    have hqk : q.1 = code := by simpa using List.find?_some hfind
    unfold trieLookup
    rw [find?_map_keyEq t _ hkey c]
    by_cases hc : c = code
    · rw [if_pos hc, hc, hfind]
      simp [hqk]
    · rw [if_neg hc]
      cases hfind2 : t.find? fun p => p.1 = c with
      | none => rfl
      | some r =>
        have hrk : r.1 = c := by simpa using List.find?_some hfind2
        have hrcode : ¬ r.1 = code := fun he => hc (hrk ▸ he)
        simp [hrcode]

theorem compile2Loop_ok (items : List DictItem) (st : Compile2State) :
    compile2Loop st (items.map Except.ok) = .ok (items.foldl compile2Step st) := by
  induction items generalizing st with
  | nil => rfl
  | cons i rest ih => simpa [compile2Loop] using ih (compile2Step st i)

theorem compile2_foldl_defs (items : List DictItem) (st : Compile2State) :
    (items.foldl compile2Step st).defs =
      items.foldl (fun d i => defsInsert d i.text (i.weight, i.comment)) st.defs := by
  induction items generalizing st with
  | nil => rfl
  | cons i rest ih => simpa [compile2Step] using ih (compile2Step st i)

theorem compile2_foldl_trie (items : List DictItem) (st : Compile2State) :
    (items.foldl compile2Step st).trie =
      items.foldl (fun tr i => triePush tr i.code i.text) st.trie := by
  induction items generalizing st with
  | nil => rfl
  | cons i rest ih => simpa [compile2Step] using ih (compile2Step st i)

theorem defsLookup_foldl (items : List DictItem) (d : DefsMap) (t : String) :
    defsLookup (items.foldl (fun d i => defsInsert d i.text (i.weight, i.comment)) d) t =
      match items.reverse.find? fun i => i.text = t with
      | some i => some (i.weight, i.comment)
      | none => defsLookup d t := by
  induction items generalizing d with
  | nil => rfl
  | cons i rest ih =>
    rw [List.foldl_cons, ih, List.reverse_cons, List.find?_append]
    cases hr : rest.reverse.find? fun x => x.text = t with
    | some j => simp
    | none =>
      rw [Option.none_or, defsLookup_defsInsert]
      by_cases ht : i.text = t
      · have hd : decide (i.text = t) = true := decide_eq_true ht
        simp [List.find?, hd, ht.symm]
      · have hd : decide (i.text = t) = false := decide_eq_false ht
        have hd2 : ¬ t = i.text := fun he => ht he.symm
        simp [List.find?, hd, hd2]

theorem trieLookup_foldl (items : List DictItem) (tr : TrieMap) (c : String) :
    trieLookup (items.foldl (fun tr i => triePush tr i.code i.text) tr) c =
      match trieLookup tr c with
      | some l => some (l ++ (items.filter fun i => i.code = c).map DictItem.text)
      | none =>
        match (items.filter fun i => i.code = c).map DictItem.text with
        | [] => none
        | ts => some ts := by
  induction items generalizing tr with
  | nil =>
    cases h : trieLookup tr c <;> simp [h]
  | cons i rest ih =>
    rw [List.foldl_cons, ih, trieLookup_triePush]
    by_cases hc : c = i.code
    · rw [if_pos hc, ← hc]
      have hfilter : ((i :: rest).filter fun x => x.code = c) =
          i :: (rest.filter fun x => x.code = c) := by
        have hd : decide (i.code = c) = true := decide_eq_true hc.symm
        simp [List.filter, hd]
      rw [hfilter]
      cases h : trieLookup tr c with
      | some l => simp
      | none => simp
    · rw [if_neg hc]
      have hfilter : ((i :: rest).filter fun x => x.code = c) =
          rest.filter fun x => x.code = c := by
        have hd : decide (i.code = c) = false := decide_eq_false fun he => hc he.symm
        simp [List.filter, hd]
      rw [hfilter]

theorem flatten_map_map {α β : Type} (files : List (List α)) (f : α → β) :
    (files.map (List.map f)).flatten = files.flatten.map f :=
  (List.map_flatten f files).symm

/-- C6: in the trie/KV compile path, a successful `compile2` leaves in the
definitions table, for every text, the `(weight, comment)` of the last parsed
row carrying that text across all the formula's files (redb `insert` is an
upsert), while the trie entry for every code lists the texts of the rows with
that code in encounter order, duplicates included. -/
theorem compile2_lastWrite_trieOrder (files : List (List DictItem)) (t c : String) :
    ∃ st, Formula.compile2 (files.map (List.map Except.ok)) = .ok st ∧
      defsLookup st.defs t =
        ((files.flatten.reverse.find? fun i => i.text = t).map fun i =>
          (i.weight, i.comment)) ∧
      trieLookup st.trie c =
        (match (files.flatten.filter fun i => i.code = c).map DictItem.text with
         | [] => none
         | ts => some ts) := by
  refine ⟨compile2Pure files.flatten, ?_, ?_, ?_⟩
  · unfold Formula.compile2 compile2Pure
    rw [flatten_map_map, compile2Loop_ok]
  · unfold compile2Pure
    rw [compile2_foldl_defs, defsLookup_foldl]
    cases hr : files.flatten.reverse.find? fun i => i.text = t <;> rfl
  · unfold compile2Pure
    rw [compile2_foldl_trie, trieLookup_foldl]
    rfl

/-- The trie entry for a code, as the list of its stored texts (empty when
the code is absent). -/
def entryOf (tr : TrieSetMap) (c : String) : List String :=
  (trieSetLookup tr c).getD []

theorem mem_setInsert (s : List String) (x t : String) :
    t ∈ setInsert s x ↔ t ∈ s ∨ t = x := by
  unfold setInsert
  by_cases hx : x ∈ s
  · rw [if_pos hx]
    constructor
    · exact Or.inl
    · rintro (h | rfl)
      · exact h
      · exact hx
  · rw [if_neg hx]
    simp

theorem nodup_setInsert (s : List String) (x : String) (h : s.Nodup) :
    (setInsert s x).Nodup := by
  unfold setInsert
  by_cases hx : x ∈ s
  · rwa [if_pos hx]
  · rw [if_neg hx]
    simpa [List.Nodup, List.pairwise_append] using
      ⟨h, fun y hy he => hx (he ▸ hy)⟩

theorem trieSetLookup_add (tr : TrieSetMap) (code text c : String) :
    trieSetLookup (trieSetAdd tr code text) c =
      if c = code then some (setInsert (entryOf tr code) text)
      else trieSetLookup tr c := by
  have hkey : ∀ p : String × List String,
      ((if p.1 = code then (p.1, setInsert p.2 text) else p) : String × List String).1 = p.1 := by
    intro p
    by_cases hp : p.1 = code <;> simp [hp]
  unfold trieSetAdd
  by_cases hs : (((tr.find? fun p => p.1 = code).map Prod.snd).isSome) = true
  · rw [if_pos hs]
    obtain ⟨q, hfind⟩ : ∃ q, (tr.find? fun p => p.1 = code) = some q := by
      cases hfind : tr.find? fun p => p.1 = code
      · rw [hfind] at hs
        simp at hs
      · exact ⟨_, rfl⟩
    have hqk : q.1 = code := by simpa using List.find?_some hfind
    unfold trieSetLookup entryOf trieSetLookup
    rw [find?_map_keyEq tr _ hkey c]
    by_cases hc : c = code
    · rw [if_pos hc, hc, hfind]
      simp [hqk]
    · rw [if_neg hc]
      cases hfind2 : tr.find? fun p => p.1 = c with
      | none => rfl
      | some r =>
        have hrk : r.1 = c := by simpa using List.find?_some hfind2
        have hrcode : ¬ r.1 = code := fun he => hc (hrk ▸ he)
        simp [hrcode]
  · rw [if_neg hs]
    have hnone : (tr.find? fun p => p.1 = code) = none := by
      cases hfind : tr.find? fun p => p.1 = code
      · rfl
      · rw [hfind] at hs
        simp at hs
    by_cases hc : c = code
    · rw [if_pos hc, hc]
      unfold trieSetLookup entryOf trieSetLookup
      rw [List.find?_append, hnone, Option.none_or]
      simp [List.find?, setInsert]
    · rw [if_neg hc]
      unfold trieSetLookup
      rw [List.find?_append]
      have hd : decide (code = c) = false := decide_eq_false fun he => hc he.symm
      have hsingle : ([(code, [text])].find? fun p => p.1 = c) = none := by
        simp [List.find?, hd]
      rw [hsingle, Option.or_none]

theorem entryOf_add (tr : TrieSetMap) (code text c : String) :
    entryOf (trieSetAdd tr code text) c =
      if c = code then setInsert (entryOf tr code) text else entryOf tr c := by
  unfold entryOf
  rw [trieSetLookup_add]
  by_cases hc : c = code <;> simp [hc, entryOf]

theorem build2_foldl_trie (phf : String → Nat) (items : List DictItem) (st : Build2State) :
    (items.foldl (build2Step phf) st).trie =
      items.foldl (fun tr i => trieSetAdd tr i.code i.text) st.trie := by
  induction items generalizing st with
  | nil => rfl
  | cons i rest ih =>
    rw [List.foldl_cons, List.foldl_cons, ih]
    unfold build2Step
    by_cases hv : i.text ∈ st.visited <;> simp [hv]

theorem mem_entryOf_foldTrie (items : List DictItem) (tr : TrieSetMap) (c t : String) :
    t ∈ entryOf (items.foldl (fun tr i => trieSetAdd tr i.code i.text) tr) c ↔
      t ∈ entryOf tr c ∨ ∃ i ∈ items, i.code = c ∧ i.text = t := by
  induction items generalizing tr with
  | nil => simp
  | cons i rest ih =>
    rw [List.foldl_cons, ih, entryOf_add]
    by_cases hc : c = i.code
    · subst hc
      rw [if_pos rfl, mem_setInsert]
      constructor
      · rintro ((h | rfl) | ⟨j, hj, hjc, hjt⟩)
        · exact Or.inl h
        · exact Or.inr ⟨i, List.mem_cons_self _ _, rfl, rfl⟩
        · exact Or.inr ⟨j, List.mem_cons_of_mem _ hj, hjc, hjt⟩
      · rintro (h | ⟨j, hj, hjc, hjt⟩)
        · exact Or.inl (Or.inl h)
        · rcases List.mem_cons.mp hj with rfl | hj2
          · exact Or.inl (Or.inr hjt.symm)
          · exact Or.inr ⟨j, hj2, hjc, hjt⟩
    · rw [if_neg hc]
      constructor
      · rintro (h | ⟨j, hj, hjc, hjt⟩)
        · exact Or.inl h
        · exact Or.inr ⟨j, List.mem_cons_of_mem _ hj, hjc, hjt⟩
      · rintro (h | ⟨j, hj, hjc, hjt⟩)
        · exact Or.inl h
        · rcases List.mem_cons.mp hj with rfl | hj2
          · exact absurd hjc.symm hc
          · exact Or.inr ⟨j, hj2, hjc, hjt⟩

theorem nodup_entryOf_foldTrie (items : List DictItem) (tr : TrieSetMap) (c : String)
    (h : (entryOf tr c).Nodup) :
    (entryOf (items.foldl (fun tr i => trieSetAdd tr i.code i.text) tr) c).Nodup := by
  induction items generalizing tr with
  | nil => exact h
  | cons i rest ih =>
    rw [List.foldl_cons]
    apply ih
    rw [entryOf_add]
    by_cases hc : c = i.code
    · subst hc
      rw [if_pos rfl]
      exact nodup_setInsert _ _ h
    · rwa [if_neg hc]

theorem trieSetLookup_foldTrie_none (items : List DictItem) (tr : TrieSetMap) (c : String) :
    trieSetLookup (items.foldl (fun tr i => trieSetAdd tr i.code i.text) tr) c = none ↔
      trieSetLookup tr c = none ∧ ∀ i ∈ items, i.code ≠ c := by
  induction items generalizing tr with
  | nil => simp
  | cons i rest ih =>
    rw [List.foldl_cons, ih, trieSetLookup_add]
    by_cases hc : c = i.code
    · rw [if_pos hc]
      simp [hc]
    · rw [if_neg hc]
      constructor
      · rintro ⟨h1, h2⟩
        exact ⟨h1, fun j hj => by
          rcases List.mem_cons.mp hj with rfl | hj2
          · exact fun he => hc he.symm
          · exact h2 j hj2⟩
      · rintro ⟨h1, h2⟩
        exact ⟨h1, fun j hj => h2 j (List.mem_cons_of_mem _ hj)⟩

/-- C7: in `build2`, the trie maps each code to the set of distinct texts seen
for that code: a code is absent exactly when no row carries it, and the entry
for a present code holds each text of a row with that code exactly once —
inserting the same text under the same code again leaves a single occurrence
(`StringPatriciaSet` semantics). -/
theorem build2_trie_dedups (phf : String → Nat) (items : List DictItem) (c t : String) :
    (trieSetLookup (build2Fold phf items).trie c = none → ∀ i ∈ items, i.code ≠ c) ∧
    ∀ l, trieSetLookup (build2Fold phf items).trie c = some l →
      l.Nodup ∧
      (t ∈ l ↔ ∃ i ∈ items, i.code = c ∧ i.text = t) ∧
      l.count t = if ∃ i ∈ items, i.code = c ∧ i.text = t then 1 else 0 := by
  have htrie : (build2Fold phf items).trie =
      items.foldl (fun tr i => trieSetAdd tr i.code i.text) [] := by
    unfold build2Fold
    rw [build2_foldl_trie]
  constructor
  · intro hnone
    rw [htrie] at hnone
    exact fun i hi => (trieSetLookup_foldTrie_none items [] c).mp hnone |>.2 i hi
  · intro l hl
    have hmem : ∀ x, x ∈ l ↔ ∃ i ∈ items, i.code = c ∧ i.text = x := by
      intro x
      have := mem_entryOf_foldTrie items [] c x
      rw [← htrie] at this
      unfold entryOf at this
      rw [hl] at this
      simpa [trieSetLookup] using this
    have hnd : l.Nodup := by
      have := nodup_entryOf_foldTrie items [] c (by simp [entryOf, trieSetLookup])
      rw [← htrie] at this
      unfold entryOf at this
      rwa [hl] at this
    refine ⟨hnd, hmem t, ?_⟩
    by_cases hex : ∃ i ∈ items, i.code = c ∧ i.text = t
    · rw [if_pos hex]
      exact List.count_eq_one_of_mem hnd ((hmem t).mpr hex)
    · rw [if_neg hex]
      exact List.count_eq_zero.mpr fun hmem2 => hex ((hmem t).mp hmem2)

/-- Witness for C7 at a duplicated concrete row: inserting `("t1", "ab")`
twice leaves one occurrence of `"t1"` in the entry for `"ab"`. -/
theorem build2_trie_dedups_witness :
    ((["t1"] : List String).Nodup ∧
      (("t1" ∈ (["t1"] : List String)) ↔
        ∃ i ∈ [(⟨"t1", "ab", 1, none⟩ : DictItem), ⟨"t1", "ab", 2, none⟩],
          i.code = "ab" ∧ i.text = "t1") ∧
      (["t1"] : List String).count "t1" =
        if ∃ i ∈ [(⟨"t1", "ab", 1, none⟩ : DictItem), ⟨"t1", "ab", 2, none⟩],
            i.code = "ab" ∧ i.text = "t1" then 1 else 0) :=
  (build2_trie_dedups (fun _ => 0) [⟨"t1", "ab", 1, none⟩, ⟨"t1", "ab", 2, none⟩]
    "ab" "t1").2 ["t1"] (by decide)

theorem mem_uniqAux (l : List String) (seen : List String) (t : String) :
    t ∈ uniqAux seen l ↔ t ∈ l ∧ t ∉ seen := by
  induction l generalizing seen with
  | nil => simp [uniqAux]
  | cons x xs ih =>
    unfold uniqAux
    by_cases hx : x ∈ seen
    · rw [if_pos hx, ih]
      constructor
      · rintro ⟨h1, h2⟩
        exact ⟨List.mem_cons_of_mem _ h1, h2⟩
      · rintro ⟨h1, h2⟩
        rcases List.mem_cons.mp h1 with rfl | h3
        · exact absurd hx h2
        · exact ⟨h3, h2⟩
    · rw [if_neg hx]
      rw [List.mem_cons, ih]
      constructor
      · rintro (rfl | ⟨h1, h2⟩)
        · exact ⟨List.mem_cons_self _ _, hx⟩
        · exact ⟨List.mem_cons_of_mem _ h1,
            fun hs => h2 (List.mem_cons_of_mem _ hs)⟩
      · rintro ⟨h1, h2⟩
        by_cases htx : t = x
        · exact Or.inl htx
        · rcases List.mem_cons.mp h1 with rfl | h3
          · exact absurd rfl htx
          · refine Or.inr ⟨h3, fun hs => ?_⟩
            rcases List.mem_cons.mp hs with he | h4
            · exact htx he
            · exact h2 h4

theorem nodup_uniqAux (l : List String) (seen : List String) :
    (uniqAux seen l).Nodup := by
  induction l generalizing seen with
  | nil => simp [uniqAux]
  | cons x xs ih =>
    unfold uniqAux
    by_cases hx : x ∈ seen
    · rw [if_pos hx]
      exact ih seen
    · rw [if_neg hx]
      refine List.nodup_cons.mpr ⟨fun hmem => ?_, ih (x :: seen)⟩
      exact ((mem_uniqAux xs (x :: seen) x).mp hmem).2 (List.mem_cons_self _ _)

theorem mem_uniqTexts (l : List String) (t : String) : t ∈ uniqTexts l ↔ t ∈ l := by
  unfold uniqTexts
  rw [mem_uniqAux]
  simp

theorem build2Step_defTable_length (phf : String → Nat) (st : Build2State) (i : DictItem) :
    (build2Step phf st i).defTable.length = st.defTable.length := by
  unfold build2Step
  by_cases hv : i.text ∈ st.visited <;> simp [hv]

theorem build2_foldl_defTable_length (phf : String → Nat) (items : List DictItem)
    (st : Build2State) :
    (items.foldl (build2Step phf) st).defTable.length = st.defTable.length := by
  induction items generalizing st with
  | nil => rfl
  | cons i rest ih =>
    rw [List.foldl_cons, ih, build2Step_defTable_length]

theorem build2_foldl_writes (phf : String → Nat) (items : List DictItem) (st : Build2State) :
    (items.foldl (build2Step phf) st).writes =
      st.writes ++ (uniqAux st.visited (textsOf items)).map phf := by
  induction items generalizing st with
  | nil => simp [textsOf, uniqAux]
  | cons i rest ih =>
    rw [List.foldl_cons, ih]
    have hu : uniqAux st.visited (textsOf (i :: rest)) =
        if i.text ∈ st.visited then uniqAux st.visited (textsOf rest)
        else i.text :: uniqAux (i.text :: st.visited) (textsOf rest) := rfl
    rw [hu]
    by_cases hv : i.text ∈ st.visited
    · rw [if_pos hv]
      simp [build2Step, hv]
    · rw [if_neg hv]
      simp [build2Step, hv]

theorem build2_defTable_preserved (phf : String → Nat) (items : List DictItem)
    (st : Build2State) (j : Nat)
    (h : ∀ x ∈ items, x.text ∉ st.visited → phf x.text ≠ j) :
    (items.foldl (build2Step phf) st).defTable[j]? = st.defTable[j]? := by
  induction items generalizing st with
  | nil => rfl
  | cons i rest ih =>
    rw [List.foldl_cons]
    by_cases hv : i.text ∈ st.visited
    · rw [ih (build2Step phf st i) fun x hx hxv => by
        refine h x (List.mem_cons_of_mem _ hx) ?_
        simpa [build2Step, hv] using hxv]
      simp [build2Step, hv]
    · rw [ih (build2Step phf st i) fun x hx hxv => by
        refine h x (List.mem_cons_of_mem _ hx) fun hmem => hxv ?_
        simp only [build2Step, if_neg hv]
        exact List.mem_cons_of_mem _ hmem]
      have hne : phf i.text ≠ j := h i (List.mem_cons_self _ _) hv
      simp [build2Step, hv, List.getElem?_set_ne hne]

theorem build2_defTable_firstWrite (phf : String → Nat) (items : List DictItem)
    (st : Build2State) (t : String) (i0 : DictItem)
    (hvis : t ∉ st.visited)
    (hfind : items.find? (fun i => i.text = t) = some i0)
    (hinj : ∀ x, x ∈ textsOf items → phf x = phf t → x = t)
    (hlen : phf t < st.defTable.length) :
    (items.foldl (build2Step phf) st).defTable[phf t]? = some (i0.weight, i0.comment) := by
  induction items generalizing st with
  | nil => simp [List.find?] at hfind
  | cons i rest ih =>
    rw [List.foldl_cons]
    by_cases hit : i.text = t
    · have hi0 : i0 = i := by
        simp only [List.find?] at hfind
        rw [decide_eq_true hit] at hfind
        exact (Option.some.inj hfind).symm
      have hivis : i.text ∉ st.visited := fun hm => hvis (hit ▸ hm)
      rw [build2_defTable_preserved phf rest (build2Step phf st i) (phf t)
        fun x hx hxv hpe => ?_]
      · show (build2Step phf st i).defTable[phf t]? = _
        simp only [build2Step, if_neg hivis]
        rw [← hit, List.getElem?_set_self (by rwa [hit]), hi0]
      · have hxvis : x.text ∉ i.text :: st.visited := by
          simpa [build2Step, hivis] using hxv
        have hxt : x.text = t :=
          hinj x.text (List.mem_map_of_mem _ (List.mem_cons_of_mem _ hx)) hpe
        refine hxvis ?_
        rw [hxt, ← hit]
        exact List.mem_cons_self _ _
    · have hfind2 : rest.find? (fun i => i.text = t) = some i0 := by
        simp only [List.find?] at hfind
        rwa [decide_eq_false hit] at hfind
      refine ih (build2Step phf st i) ?_ hfind2
        (fun x hx hpe => hinj x (List.mem_cons_of_mem _ hx) hpe) ?_
      · unfold build2Step
        by_cases hv : i.text ∈ st.visited
        · simpa [hv] using hvis
        · simp only [if_neg hv]
          intro hmem
          rcases List.mem_cons.mp hmem with he | hmem2
          · exact hit he.symm
          · exact hvis hmem2
      · rwa [build2Step_defTable_length]

theorem count_map_of_nodup_injOn (l : List String) (f : String → Nat) (t : String)
    (hnd : l.Nodup) (ht : t ∈ l) (hinj : ∀ x ∈ l, f x = f t → x = t) :
    (l.map f).count (f t) = 1 := by
  induction l with
  | nil => simp at ht
  | cons x xs ih =>
    obtain ⟨hxnot, hndxs⟩ := List.nodup_cons.mp hnd
    rcases List.mem_cons.mp ht with rfl | htxs
    · rw [List.map_cons, List.count_cons_self]
      have hzero : (xs.map f).count (f t) = 0 := by
        rw [List.count_eq_zero]
        intro hmem
        obtain ⟨y, hy, hye⟩ := List.mem_map.mp hmem
        exact hxnot ((hinj y (List.mem_cons_of_mem _ hy) hye) ▸ hy)
      rw [hzero]
    · have hne : ¬ f x = f t := fun he =>
        hxnot ((hinj x (List.mem_cons_self _ _) he) ▸ htxs)
      rw [List.map_cons, List.count_cons, beq_eq_false_iff_ne.mpr hne,
        if_neg (by simp), Nat.add_zero]
      exact ih hndxs htxs fun y hy hye => hinj y (List.mem_cons_of_mem _ hy) hye

/-- C4: in the flat perfect-hash build, for every text appearing in the parsed
rows, the definition-array slot the hash assigns to that text holds the
`(weight, comment)` of the first row in input order carrying that text, and
that slot is written exactly once over the whole build (the `visited` guard
skips every later duplicate), under the perfect-hash hypotheses (injectivity
on the input texts and indices within the array). -/
theorem build2_firstWriteWins (phf : String → Nat) (items : List DictItem) (t : String)
    (i0 : DictItem)
    (hfind : items.find? (fun i => i.text = t) = some i0)
    (hinj : ∀ t1 ∈ textsOf items, ∀ t2 ∈ textsOf items, phf t1 = phf t2 → t1 = t2)
    (hlen : ∀ x ∈ textsOf items, phf x < (uniqTexts (textsOf items)).length) :
    (build2Fold phf items).defTable[phf t]? = some (i0.weight, i0.comment) ∧
    (build2Fold phf items).writes.count (phf t) = 1 := by
  have htmem : t ∈ textsOf items := by
    have hp : i0.text = t := by simpa using List.find?_some hfind
    exact hp ▸ List.mem_map_of_mem _ (List.mem_of_find?_eq_some hfind)
  constructor
  · apply build2_defTable_firstWrite phf items _ t i0 (by simp) hfind
      (fun x hx hpe => hinj x hx t htmem hpe)
    simpa using hlen t htmem
  · unfold build2Fold
    rw [build2_foldl_writes]
    rw [List.nil_append]
    apply count_map_of_nodup_injOn _ phf t (nodup_uniqAux _ _)
    · rw [mem_uniqAux]
      exact ⟨htmem, by simp⟩
    · intro x hx
      exact hinj x ((mem_uniqAux _ _ x).mp hx).1 t htmem

/-- The concrete input shared by the `build2` witnesses: the text `"a"`
occurs twice with different weights, `"b"` once. -/
def build2Items : List DictItem :=
  [⟨"a", "x", 3, none⟩, ⟨"a", "y", 7, some "z"⟩, ⟨"b", "x", 5, none⟩]

/-- Witness for C4: on `build2Items`, slot `phf "a"` holds the first
occurrence's `(3, none)` — not the later `(7, some "z")` — and was written
once. -/
theorem build2_firstWriteWins_witness :
    (build2Fold (mphfModel (uniqTexts (textsOf build2Items))) build2Items).defTable[
      mphfModel (uniqTexts (textsOf build2Items)) "a"]? = some (3, none) ∧
    (build2Fold (mphfModel (uniqTexts (textsOf build2Items))) build2Items).writes.count
      (mphfModel (uniqTexts (textsOf build2Items)) "a") = 1 :=
  build2_firstWriteWins (mphfModel (uniqTexts (textsOf build2Items))) build2Items "a"
    ⟨"a", "x", 3, none⟩ (by decide) (by decide) (by decide)

/-- C8: the perfect hash modelled over the deduplicated text list is
injective on the input texts, its indices stay within the definition array,
and that array's length equals the number of distinct texts.
`boomphf::Mphf` is an external crate; `mphfModel` realizes its documented
MPHF contract, and the array-shape facts are those of `build2` itself. -/
theorem mphf_injective_bounds (items : List DictItem) :
    (∀ t1 ∈ textsOf items, ∀ t2 ∈ textsOf items, t1 ≠ t2 →
      mphfModel (uniqTexts (textsOf items)) t1 ≠ mphfModel (uniqTexts (textsOf items)) t2) ∧
    (∀ x ∈ textsOf items,
      mphfModel (uniqTexts (textsOf items)) x <
        (build2Fold (mphfModel (uniqTexts (textsOf items))) items).defTable.length) ∧
    (build2Fold (mphfModel (uniqTexts (textsOf items))) items).defTable.length =
      (textsOf items).toFinset.card := by
  have hlen : (build2Fold (mphfModel (uniqTexts (textsOf items))) items).defTable.length =
      (uniqTexts (textsOf items)).length := by
    unfold build2Fold
    rw [build2_foldl_defTable_length]
    simp
  have hidx : ∀ x ∈ textsOf items,
      mphfModel (uniqTexts (textsOf items)) x < (uniqTexts (textsOf items)).length := by
    intro x hx
    exact List.indexOf_lt_length.mpr ((mem_uniqTexts _ x).mpr hx)
  refine ⟨?_, ?_, ?_⟩
  · intro t1 h1 t2 h2 hne he
    have hm1 : t1 ∈ uniqTexts (textsOf items) := (mem_uniqTexts _ t1).mpr h1
    have hm2 : t2 ∈ uniqTexts (textsOf items) := (mem_uniqTexts _ t2).mpr h2
    apply hne
    have e1 := List.indexOf_get (List.indexOf_lt_length.mpr hm1)
    have e2 := List.indexOf_get (List.indexOf_lt_length.mpr hm2)
    unfold mphfModel at he
    rw [← e1, ← e2]
    exact congrArg _ (Fin.ext he)
  · intro x hx
    rw [hlen]
    exact hidx x hx
  · rw [hlen]
    have hext : (uniqTexts (textsOf items)).toFinset = (textsOf items).toFinset := by
      ext x
      simp [List.mem_toFinset, mem_uniqTexts]
    rw [← List.toFinset_card_of_nodup (l := uniqTexts (textsOf items)) (nodup_uniqAux _ _),
      hext]

/-- Witness for C8 on `build2Items`: the two distinct texts `"a"` and `"b"`
get different indices, `"a"`'s index is in bounds, and the array has one slot
per distinct text. -/
theorem mphf_injective_bounds_witness :
    mphfModel (uniqTexts (textsOf build2Items)) "a" ≠
      mphfModel (uniqTexts (textsOf build2Items)) "b" ∧
    mphfModel (uniqTexts (textsOf build2Items)) "a" <
      (build2Fold (mphfModel (uniqTexts (textsOf build2Items))) build2Items).defTable.length ∧
    (build2Fold (mphfModel (uniqTexts (textsOf build2Items))) build2Items).defTable.length =
      (textsOf build2Items).toFinset.card :=
  ⟨(mphf_injective_bounds build2Items).1 "a" (by decide) "b" (by decide) (by decide),
   (mphf_injective_bounds build2Items).2.1 "a" (by decide),
   (mphf_injective_bounds build2Items).2.2⟩

theorem likeMatch_nil (s : List Char) : likeMatch [] s = s.isEmpty := by
  rw [likeMatch]

theorem likeMatch_cons (p : Char) (ps : List Char) (s : List Char) :
    likeMatch (p :: ps) s =
      if p = '%' then
        (likeMatch ps s ||
          match s with
          | [] => false
          | _ :: cs => likeMatch (p :: ps) cs)
      else
        match s with
        | [] => false
        | c :: cs => (p = '_' || (asciiLower p = asciiLower c : Bool)) && likeMatch ps cs := by
  rw [likeMatch.eq_def]

theorem likeMatch_pct (s : List Char) : likeMatch ['%'] s = true := by
  induction s with
  | nil =>
    rw [likeMatch_cons]
    simp [likeMatch_nil]
  | cons c cs ih =>
    rw [likeMatch_cons]
    simp [likeMatch_nil, ih]

theorem likeMatch_append_pct (q s : List Char)
    (hq : ∀ ch ∈ q, ch ≠ '%' ∧ ch ≠ '_') :
    likeMatch (q ++ ['%']) s = asciiPrefixCI q s := by
  induction q generalizing s with
  | nil => simp [likeMatch_pct, asciiPrefixCI]
  | cons p ps ih =>
    obtain ⟨hp1, hp2⟩ := hq p (List.mem_cons_self _ _)
    rw [List.cons_append, likeMatch_cons, if_neg hp1]
    cases s with
    | nil => simp [asciiPrefixCI]
    | cons c cs =>
      show (((p = '_' : Bool) || (asciiLower p = asciiLower c : Bool)) &&
          likeMatch (ps ++ ['%']) cs) = asciiPrefixCI (p :: ps) (c :: cs)
      rw [ih cs fun ch hch => hq ch (List.mem_cons_of_mem _ hch),
        show asciiPrefixCI (p :: ps) (c :: cs) =
          ((asciiLower p = asciiLower c : Bool) && asciiPrefixCI ps cs) from rfl]
      simp [decide_eq_false hp2]

theorem mem_of_mem_collapseByText (l : List DictItem) (r : DictItem)
    (h : r ∈ collapseByText l) : r ∈ l := by
  induction l with
  | nil => simp [collapseByText] at h
  | cons x xs ih =>
    unfold collapseByText at h
    by_cases hx : xs.any fun y => y.text = x.text
    · rw [if_pos hx] at h
      exact List.mem_cons_of_mem _ (ih h)
    · rw [if_neg hx] at h
      rcases List.mem_cons.mp h with rfl | h2
      · exact List.mem_cons_self _ _
      · exact List.mem_cons_of_mem _ (ih h2)

theorem pairwise_collapseByText (l : List DictItem) :
    (collapseByText l).Pairwise fun a b => a.text ≠ b.text := by
  induction l with
  | nil => simp [collapseByText]
  | cons x xs ih =>
    unfold collapseByText
    by_cases hx : xs.any fun y => y.text = x.text
    · rwa [if_pos hx]
    · rw [if_neg hx]
      refine List.pairwise_cons.mpr ⟨fun b hb he => ?_, ih⟩
      have hany := List.any_eq_false.mp (Bool.not_eq_true _ ▸ hx)
      exact hany b (mem_of_mem_collapseByText xs b hb) (by simp [he.symm])

theorem collapseByText_covers (l : List DictItem) :
    ∀ r ∈ l, ∃ x ∈ collapseByText l, x.text = r.text := by
  induction l with
  | nil => simp
  | cons x xs ih =>
    intro r hr
    unfold collapseByText
    by_cases hx : xs.any fun y => y.text = x.text
    · rw [if_pos hx]
      rcases List.mem_cons.mp hr with rfl | h2
      · obtain ⟨y, hy, hyt⟩ := List.any_eq_true.mp hx
        obtain ⟨z, hz, hzt⟩ := ih y hy
        exact ⟨z, hz, hzt.trans (by simpa using hyt)⟩
      · exact ih r h2
    · rw [if_neg hx]
      rcases List.mem_cons.mp hr with rfl | h2
      · exact ⟨_, List.mem_cons_self _ _, rfl⟩
      · obtain ⟨z, hz, hzt⟩ := ih r h2
        exact ⟨z, List.mem_cons_of_mem _ hz, hzt⟩

theorem perm_insertByWeight (x : SearchResultItem) (l : List SearchResultItem) :
    List.Perm (insertByWeight x l) (x :: l) := by
  induction l with
  | nil => rfl
  | cons y ys ih =>
    unfold insertByWeight
    by_cases hw : x.weight ≥ y.weight
    · rw [if_pos hw]
    · rw [if_neg hw]
      exact (List.Perm.cons y ih).trans (List.Perm.swap x y ys)

theorem perm_sortByWeightDesc (l : List SearchResultItem) :
    List.Perm (sortByWeightDesc l) l := by
  induction l with
  | nil => rfl
  | cons x xs ih =>
    exact (perm_insertByWeight x (sortByWeightDesc xs)).trans (List.Perm.cons x ih)

theorem pairwise_insertByWeight (x : SearchResultItem) (l : List SearchResultItem)
    (h : l.Pairwise fun a b => b.weight ≤ a.weight) :
    (insertByWeight x l).Pairwise fun a b => b.weight ≤ a.weight := by
  induction l with
  | nil => simp [insertByWeight]
  | cons y ys ih =>
    obtain ⟨hy, hys⟩ := List.pairwise_cons.mp h
    unfold insertByWeight
    by_cases hw : x.weight ≥ y.weight
    · rw [if_pos hw]
      refine List.pairwise_cons.mpr ⟨fun b hb => ?_, h⟩
      rcases List.mem_cons.mp hb with rfl | hb2
      · exact hw
      · exact Nat.le_trans (hy b hb2) hw
    · rw [if_neg hw]
      refine List.pairwise_cons.mpr ⟨fun b hb => ?_, ih hys⟩
      rcases List.mem_cons.mp ((perm_insertByWeight x ys).mem_iff.mp hb) with rfl | hb2
      · exact Nat.le_of_lt (Nat.lt_of_not_le hw)
      · exact hy b hb2

theorem pairwise_sortByWeightDesc (l : List SearchResultItem) :
    (sortByWeightDesc l).Pairwise fun a b => b.weight ≤ a.weight := by
  induction l with
  | nil => simp [sortByWeightDesc]
  | cons x xs ih => exact pairwise_insertByWeight x (sortByWeightDesc xs) ih

/-- C2 counterexample: the claim quantifies over every query string, but the
engine builds the sqlite pattern `code + "%"` without escaping, and `LIKE` is
ASCII-case-insensitive: the query `"a_"` (wildcard `_`) and the query `"A"`
(case fold) both return the row whose code is `"ab"`, although neither query
is a prefix of `"ab"`. -/
theorem relSearch_prefix_counterexample :
    ShapeCodeEngine.search [⟨"x", "ab", 1, none⟩] "a_" = .ok [⟨"x", "ab", 1, none⟩] ∧
    ("a_".data.isPrefixOf "ab".data) = false ∧
    ShapeCodeEngine.search [⟨"x", "ab", 1, none⟩] "A" = .ok [⟨"x", "ab", 1, none⟩] ∧
    ("A".data.isPrefixOf "ab".data) = false := by
  have hd1 : ("a_".data ++ ['%']) = ['a', '_', '%'] := rfl
  have hd2 : ("A".data ++ ['%']) = ['A', '%'] := rfl
  have hab : ("ab" : String).data = ['a', 'b'] := rfl
  have ha1 : asciiLower 'a' = 'a' := by decide
  have ha2 : asciiLower 'A' = 'a' := by decide
  have hb : asciiLower 'b' = 'b' := by decide
  have hm1 : likeMatch ['a', '_', '%'] ['a', 'b'] = true := by
    simp [likeMatch_cons, likeMatch_nil, likeMatch_pct, ha1]
  have hm2 : likeMatch ['A', '%'] ['a', 'b'] = true := by
    simp [likeMatch_cons, likeMatch_nil, likeMatch_pct, ha1, ha2]
  refine ⟨?_, by decide, ?_, by decide⟩
  · unfold ShapeCodeEngine.search
    rw [show ([⟨"x", "ab", 1, none⟩] : List DictItem).filter
        (fun r => likeMatch ("a_".data ++ ['%']) r.code.data) = [⟨"x", "ab", 1, none⟩] by
      simp [List.filter, hm1]]
    rfl
  · unfold ShapeCodeEngine.search
    rw [show ([⟨"x", "ab", 1, none⟩] : List DictItem).filter
        (fun r => likeMatch ("A".data ++ ['%']) r.code.data) = [⟨"x", "ab", 1, none⟩] by
      simp [List.filter, hm2]]
    rfl

/-- C2 amended: for every query string free of the `LIKE` wildcards `%` and
`_`, the relational engine returns rows whose code has the query as an
ASCII-case-insensitive prefix, collapsed to at most one result per distinct
text (every matching row's text represented), ordered by weight descending;
and when no row's code matches, it returns an empty sequence — never an
error. -/
theorem relSearch_groupOrder (tbl : List DictItem) (q : String)
    (hq : ∀ ch ∈ q.data, ch ≠ '%' ∧ ch ≠ '_') :
    ∃ l, ShapeCodeEngine.search tbl q = .ok l ∧
      (∀ item ∈ l, ∃ row ∈ tbl,
        asciiPrefixCI q.data row.code.data = true ∧ item = rowToItem row) ∧
      (∀ row ∈ tbl, asciiPrefixCI q.data row.code.data = true →
        ∃ item ∈ l, item.text = row.text) ∧
      l.Pairwise (fun a b => a.text ≠ b.text) ∧
      l.Pairwise (fun a b => b.weight ≤ a.weight) ∧
      ((∀ row ∈ tbl, asciiPrefixCI q.data row.code.data = false) → l = []) := by
  have hfil : (tbl.filter fun r => likeMatch (q.data ++ ['%']) r.code.data) =
      tbl.filter fun r => asciiPrefixCI q.data r.code.data :=
    List.filter_congr fun r _ => likeMatch_append_pct q.data r.code.data hq
  refine ⟨_, rfl, ?_, ?_, ?_, ?_, ?_⟩
  · intro item hitem
    have hmem : item ∈ (collapseByText
        (tbl.filter fun r => likeMatch (q.data ++ ['%']) r.code.data)).map rowToItem :=
      (perm_sortByWeightDesc _).mem_iff.mp hitem
    obtain ⟨r, hr, hre⟩ := List.mem_map.mp hmem
    have hrf := mem_of_mem_collapseByText _ _ hr
    rw [hfil] at hrf
    obtain ⟨hrt, hrp⟩ := List.mem_filter.mp hrf
    exact ⟨r, hrt, hrp, hre.symm⟩
  · intro row hrow hpre
    have hrf : row ∈ tbl.filter fun r => likeMatch (q.data ++ ['%']) r.code.data := by
      rw [hfil]
      exact List.mem_filter.mpr ⟨hrow, hpre⟩
    obtain ⟨x, hx, hxt⟩ := collapseByText_covers _ row hrf
    refine ⟨rowToItem x, ?_, hxt⟩
    exact (perm_sortByWeightDesc _).mem_iff.mpr (List.mem_map_of_mem _ hx)
  · have hpw : ((collapseByText
        (tbl.filter fun r => likeMatch (q.data ++ ['%']) r.code.data)).map rowToItem).Pairwise
        fun a b => a.text ≠ b.text :=
      List.pairwise_map.mpr (pairwise_collapseByText _)
    exact ((perm_sortByWeightDesc _).pairwise_iff fun h => Ne.symm h).mpr hpw
  · exact pairwise_sortByWeightDesc _
  · intro hall
    have hnil : (tbl.filter fun r => likeMatch (q.data ++ ['%']) r.code.data) = [] := by
      rw [hfil]
      rw [List.filter_eq_nil_iff]
      intro r hr
      simp [hall r hr]
    rw [hnil]
    rfl

/-- Witness for the amended C2 on the spec's concrete scenario: the single
row `("你好", "ni hao", 1, None)` queried with `"ni hao"` (wildcard-free). -/
theorem relSearch_groupOrder_witness :
    ∃ l, ShapeCodeEngine.search [⟨"你好", "ni hao", 1, none⟩] "ni hao" = .ok l ∧
      (∀ item ∈ l, ∃ row ∈ [(⟨"你好", "ni hao", 1, none⟩ : DictItem)],
        asciiPrefixCI ("ni hao" : String).data row.code.data = true ∧ item = rowToItem row) ∧
      (∀ row ∈ [(⟨"你好", "ni hao", 1, none⟩ : DictItem)],
        asciiPrefixCI ("ni hao" : String).data row.code.data = true →
        ∃ item ∈ l, item.text = row.text) ∧
      l.Pairwise (fun a b => a.text ≠ b.text) ∧
      l.Pairwise (fun a b => b.weight ≤ a.weight) ∧
      ((∀ row ∈ [(⟨"你好", "ni hao", 1, none⟩ : DictItem)],
        asciiPrefixCI ("ni hao" : String).data row.code.data = false) → l = []) :=
  relSearch_groupOrder [⟨"你好", "ni hao", 1, none⟩] "ni hao" (by decide)

end Liushu
